import Mathlib

/-!
Verification of the resumable quote-extraction/translation pipeline of the
lennys-quote repository.  Shallow embedding of:
  * fix_timestamps.py        (quote location, timestamp window search)
  * process_all_transcripts.py (checkpoint manager, retry loops, batch phases)
  * fill_missing_translations_openai.py (field-incremental translation repair)
Strings are modelled as List Char, the checkpoint JSON file as an explicit
value, external services as oracle functions, Python floats as exact
rationals (all proved claims are representation independent).
-/

set_option maxHeartbeats 1000000
set_option maxRecDepth 100000

/-- A quote record from a *_quotes.json file.  A JSON key that is absent or
null is modelled as none; a present string value as some chars.  Auxiliary
enrichment fields are opaque payload and omitted. -/
structure Quote where
  text : List Char
  text_ko : Option (List Char) := none
  text_zh : Option (List Char) := none
  text_es : Option (List Char) := none
  timestamp : Option (List Char) := none
deriving DecidableEq

namespace FixTimestamps

/-- Python regex whitespace class (ASCII part), used by re.sub r"\s+". -/
def isSpaceChar (c : Char) : Bool :=
  c = ' ' || c = '\t' || c = '\n' || c = '\x0d' || c = '\x0b' || c = '\x0c'

/-- re.sub(r"\s+", " ", text): each maximal whitespace run becomes one space.
The flag records whether the previous character was part of a run. -/
def collapseWs (prevSpace : Bool) : List Char → List Char
  | [] => []
  | c :: rest =>
    if isSpaceChar c then
      if prevSpace then collapseWs true rest
      else ' ' :: collapseWs true rest
    else c :: collapseWs false rest

/-- Python str.replace for single characters. -/
def replaceChar (s : List Char) (a b : Char) : List Char :=
  s.map (fun c => if c = a then b else c)

/-- Python str.strip(): drop leading and trailing whitespace. -/
def pyStrip (s : List Char) : List Char :=
  ((s.dropWhile isSpaceChar).reverse.dropWhile isSpaceChar).reverse

/-- fix_timestamps.clean_text_for_search.  The two pairs of replace calls in
the source replace a character by itself (the quoted characters are plain
ASCII in the file), so they are identities; they are kept verbatim. -/
def clean_text_for_search (text : List Char) : List Char :=
  let t1 := collapseWs false text
  let t2 := replaceChar (replaceChar t1 '"' '"') '"' '"'
  let t3 := replaceChar (replaceChar t2 '\'' '\'') '\'' '\''
  pyStrip t3

/-- needle occurs at the head of hay. -/
def startsWith : List Char → List Char → Bool
  | _, [] => true
  | [], _ :: _ => false
  | h :: hs, n :: ns => h = n && startsWith hs ns

/-- Index of the first occurrence of needle in hay (Python str.find
without the -1 encoding). -/
def findSub : List Char → List Char → Option Nat
  | hay, needle =>
    match hay with
    | [] => if needle.isEmpty then some 0 else none
    | _ :: hs =>
      if startsWith hay needle then some 0
      else (findSub hs needle).map (· + 1)

/-- Python str.find: first index of needle in hay, or -1. -/
def strFind (hay needle : List Char) : Int :=
  match findSub hay needle with
  | some n => (n : Int)
  | none => -1

/-- fix_timestamps.find_quote_position: graduated fallback search of the
whitespace-normalized quote in the whitespace-normalized transcript. -/
def find_quote_position (transcript quote_text : List Char) : Int :=
  let clean_quote := clean_text_for_search quote_text
  let clean_transcript := clean_text_for_search transcript
  let p0 := strFind clean_transcript clean_quote
  if p0 ≠ -1 then p0 else
  let p100 := if clean_quote.length > 100 then
      strFind clean_transcript (clean_quote.take 100) else -1
  if p100 ≠ -1 then p100 else
  let p50 := if clean_quote.length > 50 then
      strFind clean_transcript (clean_quote.take 50) else -1
  if p50 ≠ -1 then p50 else
  let p30 := if clean_quote.length > 30 then
      strFind clean_transcript (clean_quote.take 30) else -1
  if p30 ≠ -1 then p30 else
  let pci := strFind (clean_transcript.map Char.toLower)
      ((clean_quote.map Char.toLower).take 50)
  if pci ≠ -1 then pci else -1

/-- The character at index i equals c. -/
def isCharAt (s : List Char) (i : Nat) (c : Char) : Bool :=
  s.get? i == some c

/-- The character at index i is an ASCII digit (regex \d, ASCII part). -/
def isDigitAt (s : List Char) (i : Nat) : Bool :=
  (s.get? i).any Char.isDigit

/-- One match of the regex r"\((\d{1,2}:\d{2}:\d{2})\)" starting at index i;
returns the captured group.  The hour tries two digits first (greedy \d{1,2})
and falls back to one; the branches are mutually exclusive. -/
def markerAt (s : List Char) (i : Nat) : Option (List Char) :=
  if isCharAt s i '(' then
    if isDigitAt s (i+1) && isDigitAt s (i+2) && isCharAt s (i+3) ':' &&
       isDigitAt s (i+4) && isDigitAt s (i+5) && isCharAt s (i+6) ':' &&
       isDigitAt s (i+7) && isDigitAt s (i+8) && isCharAt s (i+9) ')' then
      some ((s.drop (i+1)).take 8)
    else if isDigitAt s (i+1) && isCharAt s (i+2) ':' &&
       isDigitAt s (i+3) && isDigitAt s (i+4) && isCharAt s (i+5) ':' &&
       isDigitAt s (i+6) && isDigitAt s (i+7) && isCharAt s (i+8) ')' then
      some ((s.drop (i+1)).take 7)
    else none
  else none

/-- The slice transcript[max(0, q - w) : q] searched by search_in_window. -/
def searchWindow (transcript : List Char) (quote_start_pos window_size : Nat) :
    List Char :=
  (transcript.take quote_start_pos).drop (quote_start_pos - window_size)

/-- All regex matches inside a window with their start positions, in
increasing position order (re.finditer order, so the sort in the source is
the identity). -/
def windowTimestamps (s : List Char) : List (Nat × List Char) :=
  (List.range s.length).filterMap
    (fun p => (markerAt s p).map (fun ts => (p, ts)))

/-- The inner search_in_window closure of find_timestamp_before_position:
the last (largest position) marker of the window, if any. -/
def search_in_window (transcript : List Char)
    (quote_start_pos window_size : Nat) : Option (List Char) :=
  ((windowTimestamps (searchWindow transcript quote_start_pos window_size)).getLast?).map
    Prod.snd

/-- Python "abc".split(":"). -/
def splitColon : List Char → List (List Char)
  | [] => [[]]
  | c :: rest =>
    let r := splitColon rest
    if c = ':' then [] :: r
    else
      match r with
      | [] => [[c]]
      | h :: t => (c :: h) :: t

/-- Python str.zfill(2). -/
def zfill2 (s : List Char) : List Char :=
  List.replicate (2 - s.length) '0' ++ s

/-- fix_timestamps.normalize_timestamp: pad to HH:MM:SS. -/
def normalize_timestamp (ts : List Char) : List Char :=
  match splitColon ts with
  | [a, b] => ('0' :: '0' :: ':' :: []) ++ zfill2 a ++ (':' :: b)
  | [a, b, c] => zfill2 a ++ (':' :: []) ++ b ++ (':' :: []) ++ c
  | _ => ts

/-- fix_timestamps.find_timestamp_before_position: windows of 200, 500 and
1000 characters before the quote, then the entire prefix. -/
def find_timestamp_before_position (transcript : List Char)
    (quote_start_pos : Nat) : Option (List Char) :=
  match search_in_window transcript quote_start_pos 200 with
  | some r => some (normalize_timestamp r)
  | none =>
    match search_in_window transcript quote_start_pos 500 with
    | some r => some (normalize_timestamp r)
    | none =>
      match search_in_window transcript quote_start_pos 1000 with
      | some r => some (normalize_timestamp r)
      | none =>
        match search_in_window transcript quote_start_pos quote_start_pos with
        | some r => some (normalize_timestamp r)
        | none => none

/-- The per-quote step of fix_timestamps.process_quote_file (the body of the
for loop over quotes; the surrounding statistics are presentation only).
Python truthiness of quote.get("timestamp", ""): absent, null and the empty
string are falsy. -/
def fixQuoteTimestamp (transcript : List Char) (q : Quote) : Quote :=
  let quote_text := q.text
  let old_timestamp := q.timestamp.getD []
  if quote_text = [] then q
  else
    let pos := find_quote_position transcript quote_text
    if pos = -1 then q
    else
      match find_timestamp_before_position transcript pos.toNat with
      | none =>
        if old_timestamp ≠ [] then q
        else { q with timestamp := some ("00:00:00".toList) }
      | some new_timestamp =>
        if old_timestamp ≠ new_timestamp then
          { q with timestamp := some new_timestamp }
        else q

end FixTimestamps

/-- Target languages of the translation stage. -/
inductive Lang | ko | zh | es
deriving DecidableEq

/-- One external translation service call: language, source text, and either
the (already stripped) response text or none for a raised exception. -/
def Oracle := Lang → List Char → Option (List Char)

namespace Pipeline

/-- Configuration constants of process_all_transcripts.py.  Costs are Python
floats in the source; the decimal literals are modelled exactly as
rationals, which is sound for every claim proved here (they are all
representation independent). -/
def MAX_RETRIES : Nat := 3

def COST_PER_FILE_EXTRACT_USD : ℚ := 2/100

def COST_PER_FILE_TRANSLATE_USD : ℚ := 3/100

/-- The quote loop of translate_single_file: for each quote, one Korean, one
Chinese and one Spanish call, in that order, assigning the three fields.  A
raised exception aborts the loop at once (result none); the log records the
external calls actually issued.  The single json.dump at the end of the
source function is modelled at the call sites (diskAfterTranslate,
processUnitTranslate). -/
def translateLoop (o : Oracle) : List Quote → Option (List Quote) × List (Lang × List Char)
  | [] => (some [], [])
  | q :: rest =>
    match o Lang.ko q.text with
    | none => (none, [(Lang.ko, q.text)])
    | some ko =>
      match o Lang.zh q.text with
      | none => (none, [(Lang.ko, q.text), (Lang.zh, q.text)])
      | some zh =>
        match o Lang.es q.text with
        | none => (none, [(Lang.ko, q.text), (Lang.zh, q.text), (Lang.es, q.text)])
        | some es =>
          let q' := { q with text_ko := some ko, text_zh := some zh, text_es := some es }
          let r := translateLoop o rest
          (r.1.map (fun l => q' :: l),
           (Lang.ko, q.text) :: (Lang.zh, q.text) :: (Lang.es, q.text) :: r.2)

/-- Content of the quote file after translate_single_file runs on it: the
file is rewritten once, at the end, only when every call succeeded; an
exception leaves it untouched. -/
def diskAfterTranslate (o : Oracle) (quotes : List Quote) : List Quote :=
  match (translateLoop o quotes).1 with
  | some qs => qs
  | none => quotes

/-- Checkpoint content (the JSON document pipeline_checkpoint.json). -/
structure PState where
  extracted_files : List Nat
  translated_files : List Nat
  errors : List (Bool × Nat)
  start_time : Bool
  total_cost_usd : ℚ
  total_quotes_extracted : Nat
  total_quotes_translated : Nat
deriving DecidableEq

/-- The fresh state returned by CheckpointManager._load when no checkpoint
file exists. -/
def freshPState : PState :=
  { extracted_files := []
    translated_files := []
    errors := []
    start_time := false
    total_cost_usd := 0
    total_quotes_extracted := 0
    total_quotes_translated := 0 }

/-- A CheckpointManager together with the on-disk checkpoint file it
persists to (none = file does not exist). -/
structure CM where
  data : PState
  file : Option PState
deriving DecidableEq

/-- CheckpointManager.save: write the whole in-memory state to the file. -/
def save (cm : CM) : CM := { cm with file := some cm.data }

/-- A CheckpointManager constructed over a given checkpoint file
(CheckpointManager.__init__ / _load). -/
def loadCM (file : Option PState) : CM := { data := file.getD freshPState, file := file }

/-- The manager at the start of a run with no prior checkpoint file. -/
def initCM : CM := loadCM none

/-- CheckpointManager.mark_extracted. -/
def mark_extracted (cm : CM) (filename quote_count : Nat) (cost : ℚ) : CM :=
  let d := cm.data
  let d' := if filename ∈ d.extracted_files then d
    else { d with
           extracted_files := d.extracted_files ++ [filename]
           total_quotes_extracted := d.total_quotes_extracted + quote_count
           total_cost_usd := d.total_cost_usd + cost }
  save { cm with data := d' }

/-- CheckpointManager.mark_translated. -/
def mark_translated (cm : CM) (filename quote_count : Nat) (cost : ℚ) : CM :=
  let d := cm.data
  let d' := if filename ∈ d.translated_files then d
    else { d with
           translated_files := d.translated_files ++ [filename]
           total_quotes_translated := d.total_quotes_translated + quote_count
           total_cost_usd := d.total_cost_usd + cost }
  save { cm with data := d' }

/-- CheckpointManager.add_error.  An error entry is identified by its stage
(false = extract, true = translate) and unit; the wall-clock timestamp in
the message is irrelevant to every claim and omitted. -/
def add_error (cm : CM) (e : Bool × Nat) : CM :=
  save { cm with data := { cm.data with errors := cm.data.errors ++ [e] } }

/-- CheckpointManager.is_extracted. -/
def is_extracted (cm : CM) (filename : Nat) : Bool :=
  decide (filename ∈ cm.data.extracted_files)

/-- CheckpointManager.is_translated. -/
def is_translated (cm : CM) (filename : Nat) : Bool :=
  decide (filename ∈ cm.data.translated_files)

/-- CheckpointManager.set_start_time. -/
def set_start_time (cm : CM) : CM :=
  if cm.data.start_time then cm
  else save { cm with data := { cm.data with start_time := true } }

/-- The mutating checkpoint operations of a run, including constructing a
fresh manager over the persisted file (load), which models interrupting the
process and resuming. -/
inductive Op
  | markExtracted (f n : Nat) (c : ℚ)
  | markTranslated (f n : Nat) (c : ℚ)
  | addError (e : Bool × Nat)
  | load

def applyOp (cm : CM) : Op → CM
  | .markExtracted f n c => mark_extracted cm f n c
  | .markTranslated f n c => mark_translated cm f n c
  | .addError e => add_error cm e
  | .load => loadCM cm.file

def applyOps (ops : List Op) (cm : CM) : CM := ops.foldl applyOp cm

/-- The quote_count passed with the first markExtracted for a filename in a
sequence of operations (0 when there is none). -/
def firstExtractCount : List Op → Nat → Nat
  | [], _ => 0
  | Op.markExtracted g n _ :: rest, f => if g = f then n else firstExtractCount rest f
  | _ :: rest, f => firstExtractCount rest f

/-- Whether a sequence contains a markExtracted for a filename. -/
def hasMarkE (ops : List Op) (f : Nat) : Bool :=
  ops.any fun op =>
    match op with
    | Op.markExtracted g _ _ => g = f
    | _ => false

/-- Extraction oracle: unit and zero-based attempt number to the extracted
and enriched quote list, or none for a raised exception (which happens
before the output file is written). -/
def ExtractOracle := Nat → Nat → Option (List Quote)

/-- Translation oracle family: unit and attempt number to the per-call
translation oracle used during that attempt. -/
def TransOracle := Nat → Nat → Oracle

/-- State threaded through a run: checkpoint manager, the quote files on
disk keyed by unit (the filename map f.txt to f_quotes.json is injective
and elided), and the running number of external service calls issued. -/
structure RunSt where
  cm : CM
  disk : Nat → Option (List Quote)
  calls : Nat

/-- The retry while-loop shared by both stages: attempt the operation with
successive attempt indices until success, at most fuel times.  Returns the
result and the number of attempts made. -/
def attemptLoop {α : Type} (g : Nat → Option α) (base : Nat) : Nat → Option α × Nat
  | 0 => (none, 0)
  | fuel+1 =>
    match g base with
    | some a => (some a, 1)
    | none =>
      let r := attemptLoop g (base+1) fuel
      (r.1, r.2 + 1)

/-- The retry loop around translate_single_file.  Every attempt re-reads the
quote file, which failed attempts never rewrote, so each attempt starts from
the same quotes.  Returns (result, external calls issued, attempts made). -/
def translateAttempts (tr : Nat → Oracle) (quotes : List Quote) :
    Nat → Nat → Option (List Quote) × Nat × Nat
  | 0, _ => (none, 0, 0)
  | fuel+1, k =>
    let r := translateLoop (tr k) quotes
    match r.1 with
    | some qs => (some qs, r.2.length, 1)
    | none =>
      let rest := translateAttempts tr quotes fuel (k+1)
      (rest.1, r.2.length + rest.2.1, rest.2.2 + 1)

/-- One unit of process_batch_extract: skip if already extracted, else up to
MAX_RETRIES attempts; success writes the quote file and marks the unit,
exhaustion records one permanent failure and leaves everything else
untouched. -/
def processUnitExtract (eo : ExtractOracle) (f : Nat) (s : RunSt) : RunSt :=
  if is_extracted s.cm f then s
  else
    match attemptLoop (eo f) 0 MAX_RETRIES with
    | (some quotes, k) =>
      { cm := mark_extracted s.cm f quotes.length COST_PER_FILE_EXTRACT_USD
        disk := fun g => if g = f then some quotes else s.disk g
        calls := s.calls + k }
    | (none, k) =>
      { cm := add_error s.cm (false, f), disk := s.disk, calls := s.calls + k }

/-- One unit of process_batch_translate: skip if already translated, skip
silently if the quote file does not exist, else up to MAX_RETRIES attempts
of translate_single_file. -/
def processUnitTranslate (tr : TransOracle) (f : Nat) (s : RunSt) : RunSt :=
  if is_translated s.cm f then s
  else
    match s.disk f with
    | none => s
    | some quotes =>
      match translateAttempts (tr f) quotes MAX_RETRIES 0 with
      | (some qs, c, _) =>
        { cm := mark_translated s.cm f qs.length COST_PER_FILE_TRANSLATE_USD
          disk := fun g => if g = f then some qs else s.disk g
          calls := s.calls + c }
      | (none, c, _) =>
        { cm := add_error s.cm (true, f), disk := s.disk, calls := s.calls + c }

def processBatchExtract (eo : ExtractOracle) (batch : List Nat) (s : RunSt) : RunSt :=
  batch.foldl (fun s f => processUnitExtract eo f s) s

def processBatchTranslate (tr : TransOracle) (batch : List Nat) (s : RunSt) : RunSt :=
  batch.foldl (fun s f => processUnitTranslate tr f s) s

/-- One batch of main: the extraction phase over the whole batch, then the
translation phase (the cooldown waits do not affect state). -/
def runBatch (eo : ExtractOracle) (tr : TransOracle) (batch : List Nat) (s : RunSt) : RunSt :=
  processBatchTranslate tr batch (processBatchExtract eo batch s)

/-- The whole pipeline of main over the batch partition of the corpus:
set the start time, then process the batches in order. -/
def pipelineRun (eo : ExtractOracle) (tr : TransOracle)
    (batches : List (List Nat)) (s : RunSt) : RunSt :=
  batches.foldl (fun s b => runBatch eo tr b s) { s with cm := set_start_time s.cm }

end Pipeline

namespace FillMissing

def getField (q : Quote) : Lang → Option (List Char)
  | .ko => q.text_ko
  | .zh => q.text_zh
  | .es => q.text_es

def setField (q : Quote) : Lang → List Char → Quote
  | .ko, v => { q with text_ko := some v }
  | .zh, v => { q with text_zh := some v }
  | .es, v => { q with text_es := some v }

/-- fill_missing_translations_openai.is_missing_translation: the field is
absent, null, or a string that strips to empty. -/
def is_missing_translation (q : Quote) (field : Lang) : Bool :=
  match getField q field with
  | none => true
  | some v => (FixTimestamps.pyStrip v).isEmpty

/-- One field of the inner loop of process_quote_file: translate only when
the field is missing; a raised exception is caught there (the quote keeps
its value) and the loop continues.  The log records issued calls. -/
def fillField (o : Oracle) (text0 : List Char) (q : Quote) (field : Lang) :
    Quote × List (Lang × List Char) :=
  if is_missing_translation q field then
    match o field text0 with
    | some tr => (setField q field tr, [(field, text0)])
    | none => (q, [(field, text0)])
  else (q, [])

/-- The per-quote body of process_quote_file: skip quotes with falsy text,
else handle the three fields in order (ko, zh, es), each against the
original source text. -/
def fillQuote (o : Oracle) (q0 : Quote) : Quote × List (Lang × List Char) :=
  if q0.text = [] then (q0, [])
  else
    let r1 := fillField o q0.text q0 Lang.ko
    let r2 := fillField o q0.text r1.1 Lang.zh
    let r3 := fillField o q0.text r2.1 Lang.es
    (r3.1, r1.2 ++ r2.2 ++ r3.2)

/-- fill_missing_translations_openai.process_quote_file over the quote list
of one file; the file is rewritten at the end in every case, so partial
fills persist (unlike translate_single_file). -/
def process_quote_file (o : Oracle) : List Quote → List Quote × List (Lang × List Char)
  | [] => ([], [])
  | q :: rest =>
    let r := fillQuote o q
    let rr := process_quote_file o rest
    (r.1 :: rr.1, r.2 ++ rr.2)

end FillMissing

namespace FixTimestamps

lemma isCharAt_drop (l : List Char) (s i : Nat) (c : Char) :
    isCharAt (l.drop s) i c = isCharAt l (s + i) c := by
  simp [isCharAt, List.get?_drop]

lemma isDigitAt_drop (l : List Char) (s i : Nat) :
    isDigitAt (l.drop s) i = isDigitAt l (s + i) := by
  simp [isDigitAt, List.get?_drop]

lemma markerAt_drop (l : List Char) (s i : Nat) :
    markerAt (l.drop s) i = markerAt l (s + i) := by
  simp only [markerAt, isCharAt_drop, isDigitAt_drop, List.drop_drop, Nat.add_assoc]

lemma markerAt_none_of_le (l : List Char) (i : Nat) (h : l.length ≤ i) :
    markerAt l i = none := by
  simp [markerAt, isCharAt, List.getElem?_eq_none_iff.mpr h]

lemma lt_length_of_markerAt (l : List Char) (i : Nat) (cap : List Char)
    (h : markerAt l i = some cap) : i < l.length := by
  by_contra hle
  push_neg at hle
  rw [markerAt_none_of_le l i hle] at h
  exact Option.noConfusion h

lemma getLast?_filterMap_range {α : Type} (f : Nat → Option α) :
    ∀ (n i : Nat) (a : α), i < n → f i = some a →
      (∀ j, j < n → i < j → f j = none) →
      ((List.range n).filterMap f).getLast? = some a := by
  intro n
  induction n with
  | zero => intro i a hi _ _; exact absurd hi (Nat.not_lt_zero i)
  | succ n ih =>
    intro i a hi hf haft
    rw [List.range_succ, List.filterMap_append]
    rcases Nat.lt_succ_iff_lt_or_eq.mp hi with hlt | heq
    · have hn : f n = none := haft n (Nat.lt_succ_self n) hlt
      simp only [List.filterMap_cons, hn, List.filterMap_nil, List.append_nil]
      exact ih i a hlt hf (fun j hj hij => haft j (Nat.lt_succ_of_lt hj) hij)
    · subst heq
      simp only [List.filterMap_cons, hf, List.filterMap_nil]
      exact List.getLast?_concat _

lemma filterMap_range_eq_nil {α : Type} (f : Nat → Option α) (n : Nat)
    (h : ∀ j, j < n → f j = none) : (List.range n).filterMap f = [] := by
  refine List.filterMap_eq_nil_iff.mpr ?_
  intro a ha
  exact h a (List.mem_range.mp ha)

lemma search_in_window_eq_of_last (t : List Char) (q w i : Nat) (cap : List Char)
    (hf : markerAt (searchWindow t q w) i = some cap)
    (haft : ∀ j, j < (searchWindow t q w).length → i < j →
      markerAt (searchWindow t q w) j = none) :
    search_in_window t q w = some cap := by
  have hi : i < (searchWindow t q w).length := lt_length_of_markerAt _ _ _ hf
  have hlast := getLast?_filterMap_range
      (fun p => (markerAt (searchWindow t q w) p).map (fun ts => (p, ts)))
      (searchWindow t q w).length i (i, cap) hi (by simp [hf])
      (fun j hj hij => by simp [haft j hj hij])
  unfold search_in_window windowTimestamps
  rw [hlast]
  rfl

lemma search_in_window_none (t : List Char) (q w : Nat)
    (h : ∀ j, j < (searchWindow t q w).length → markerAt (searchWindow t q w) j = none) :
    search_in_window t q w = none := by
  unfold search_in_window windowTimestamps
  rw [filterMap_range_eq_nil _ _ (fun j hj => by simp [h j hj])]
  rfl

lemma search_in_window_sound (t : List Char) (q w : Nat) (ts : List Char)
    (h : search_in_window t q w = some ts) :
    ∃ p, markerAt (searchWindow t q w) p = some ts := by
  unfold search_in_window windowTimestamps at h
  cases hl : ((List.range (searchWindow t q w).length).filterMap
      (fun p => (markerAt (searchWindow t q w) p).map (fun x => (p, x)))).getLast? with
  | none => rw [hl] at h; exact Option.noConfusion h
  | some pr =>
    rw [hl] at h
    have hmem := List.mem_of_mem_getLast? hl
    rcases List.mem_filterMap.mp hmem with ⟨p, _, hfp⟩
    cases hm : markerAt (searchWindow t q w) p with
    | none => rw [hm] at hfp; exact Option.noConfusion hfp
    | some cap =>
      rw [hm] at hfp
      have hpr : pr = (p, cap) := by injection hfp with h2; exact h2.symm
      subst hpr
      have hts : cap = ts := by simpa using h
      exact ⟨p, by rw [hm, hts]⟩

lemma search_in_window_sound_abs (t : List Char) (q w : Nat) (ts : List Char)
    (h : search_in_window t q w = some ts) :
    ∃ i, markerAt (t.take q) i = some ts := by
  rcases search_in_window_sound t q w ts h with ⟨p, hp⟩
  unfold searchWindow at hp
  rw [markerAt_drop] at hp
  exact ⟨_, hp⟩

end FixTimestamps

namespace FixTimestamps

/-- Claim C7: the timestamp resolver searches only characters strictly
before the quote offset q (a returned timestamp always comes from a marker
that lies wholly inside the prefix of length q, never at or after q); the
windows are tried in the order 200, 500, 1000, entire prefix; inside the
first window that contains a marker the one with the largest offset wins;
in particular a marker 300 characters back is still found via the
500-character window. -/
theorem alignment_window_correct (t : List Char) (q : Nat) :
    (∀ ts, find_timestamp_before_position t q = some ts →
       ∃ i cap, markerAt (t.take q) i = some cap ∧ ts = normalize_timestamp cap)
  ∧ (∀ i cap, markerAt (searchWindow t q 200) i = some cap →
       (∀ j, j < (searchWindow t q 200).length → i < j →
          markerAt (searchWindow t q 200) j = none) →
       find_timestamp_before_position t q = some (normalize_timestamp cap))
  ∧ ((∀ j, j < (searchWindow t q 200).length → markerAt (searchWindow t q 200) j = none) →
     ∀ i cap, markerAt (searchWindow t q 500) i = some cap →
       (∀ j, j < (searchWindow t q 500).length → i < j →
          markerAt (searchWindow t q 500) j = none) →
       find_timestamp_before_position t q = some (normalize_timestamp cap))
  ∧ ((∀ j, j < (searchWindow t q 200).length → markerAt (searchWindow t q 200) j = none) →
     (∀ j, j < (searchWindow t q 500).length → markerAt (searchWindow t q 500) j = none) →
     ∀ i cap, markerAt (searchWindow t q 1000) i = some cap →
       (∀ j, j < (searchWindow t q 1000).length → i < j →
          markerAt (searchWindow t q 1000) j = none) →
       find_timestamp_before_position t q = some (normalize_timestamp cap))
  ∧ ((∀ j, j < (searchWindow t q 200).length → markerAt (searchWindow t q 200) j = none) →
     (∀ j, j < (searchWindow t q 500).length → markerAt (searchWindow t q 500) j = none) →
     (∀ j, j < (searchWindow t q 1000).length → markerAt (searchWindow t q 1000) j = none) →
     ∀ i cap, markerAt (searchWindow t q q) i = some cap →
       (∀ j, j < (searchWindow t q q).length → i < j →
          markerAt (searchWindow t q q) j = none) →
       find_timestamp_before_position t q = some (normalize_timestamp cap)) := by
  refine ⟨?_, ?_, ?_, ?_, ?_⟩
  · intro ts h
    unfold find_timestamp_before_position at h
    cases h200 : search_in_window t q 200 with
    | some r =>
      rw [h200] at h
      rcases search_in_window_sound_abs t q 200 r h200 with ⟨i, hi⟩
      exact ⟨i, r, hi, by simpa using h.symm⟩
    | none =>
      rw [h200] at h
      cases h500 : search_in_window t q 500 with
      | some r =>
        rw [h500] at h
        rcases search_in_window_sound_abs t q 500 r h500 with ⟨i, hi⟩
        exact ⟨i, r, hi, by simpa using h.symm⟩
      | none =>
        rw [h500] at h
        cases h1000 : search_in_window t q 1000 with
        | some r =>
          rw [h1000] at h
          rcases search_in_window_sound_abs t q 1000 r h1000 with ⟨i, hi⟩
          exact ⟨i, r, hi, by simpa using h.symm⟩
        | none =>
          rw [h1000] at h
          cases hq : search_in_window t q q with
          | some r =>
            rw [hq] at h
            rcases search_in_window_sound_abs t q q r hq with ⟨i, hi⟩
            exact ⟨i, r, hi, by simpa using h.symm⟩
          | none => rw [hq] at h; exact Option.noConfusion h
  · intro i cap hm haft
    have h200 := search_in_window_eq_of_last t q 200 i cap hm haft
    unfold find_timestamp_before_position
    rw [h200]
  · intro hn200 i cap hm haft
    have h200 := search_in_window_none t q 200 hn200
    have h500 := search_in_window_eq_of_last t q 500 i cap hm haft
    unfold find_timestamp_before_position
    rw [h200, h500]
  · intro hn200 hn500 i cap hm haft
    have h200 := search_in_window_none t q 200 hn200
    have h500 := search_in_window_none t q 500 hn500
    have h1000 := search_in_window_eq_of_last t q 1000 i cap hm haft
    unfold find_timestamp_before_position
    rw [h200, h500, h1000]
  · intro hn200 hn500 hn1000 i cap hm haft
    have h200 := search_in_window_none t q 200 hn200
    have h500 := search_in_window_none t q 500 hn500
    have h1000 := search_in_window_none t q 1000 hn1000
    have hq := search_in_window_eq_of_last t q q i cap hm haft
    unfold find_timestamp_before_position
    rw [h200, h500, h1000, hq]

/-- Witness for C7: the nearest preceding marker sits 300 characters before
the quote offset 310, outside the 200 window but inside 500, and its
timestamp is returned. -/
theorem alignment_window_correct_witness :
    find_timestamp_before_position ("(00:01:15)".toList ++ List.replicate 300 'x') 310 =
      some (normalize_timestamp ("00:01:15".toList)) :=
  (alignment_window_correct ("(00:01:15)".toList ++ List.replicate 300 'x') 310).2.2.1
    (by decide) 0 ("00:01:15".toList) (by decide) (by decide)

end FixTimestamps

namespace FixTimestamps

lemma find_timestamp_none_of_no_marker (t : List Char) (p : Nat)
    (h : ∀ i, i < p → markerAt (t.take p) i = none) :
    find_timestamp_before_position t p = none := by
  have hall : ∀ i, markerAt (t.take p) i = none := by
    intro i
    by_cases hip : i < p
    · exact h i hip
    · refine markerAt_none_of_le _ _ ?_
      have h1 : (t.take p).length ≤ p := by
        rw [List.length_take]; exact Nat.min_le_left _ _
      omega
  have hw : ∀ w j, j < (searchWindow t p w).length → markerAt (searchWindow t p w) j = none := by
    intro w j _
    unfold searchWindow
    rw [markerAt_drop]
    exact hall _
  unfold find_timestamp_before_position
  rw [search_in_window_none t p 200 (hw 200), search_in_window_none t p 500 (hw 500),
      search_in_window_none t p 1000 (hw 1000), search_in_window_none t p p (hw p)]

/-- Claim C9: when the quote is located but no marker exists anywhere in the
prefix before it (hence in none of the windows), the per-quote step of
process_quote_file keeps a non-empty existing timestamp unchanged and sets
the zero default 00:00:00 when the timestamp was empty or absent; no marker
at or after the quote offset is ever used (there is none before it, and the
search never looks at or beyond the offset). -/
theorem no_marker_fallback (t : List Char) (q : Quote)
    (htext : q.text ≠ [])
    (hpos : find_quote_position t q.text ≠ -1)
    (hnomark : ∀ i, i < (find_quote_position t q.text).toNat →
        markerAt (t.take ((find_quote_position t q.text).toNat)) i = none) :
    (q.timestamp.getD [] ≠ [] → fixQuoteTimestamp t q = q)
    ∧ (q.timestamp.getD [] = [] →
       fixQuoteTimestamp t q = { q with timestamp := some ("00:00:00".toList) }) := by
  have hts := find_timestamp_none_of_no_marker t ((find_quote_position t q.text).toNat) hnomark
  constructor
  · intro hold
    simp only [fixQuoteTimestamp, if_neg htext, if_neg hpos, hts, if_pos hold]
  · intro hold
    simp only [fixQuoteTimestamp, if_neg htext, if_neg hpos, hts]
    rw [if_neg (by simp [hold])]

/-- Witness for C9: a transcript with no marker at all; the quote is found
at offset 6 and its absent timestamp becomes the zero default. -/
theorem no_marker_fallback_witness :
    fixQuoteTimestamp ("hello world again".toList) { text := "world".toList } =
      { text := "world".toList, timestamp := some ("00:00:00".toList) } :=
  (no_marker_fallback ("hello world again".toList) { text := "world".toList }
      (by decide) (by decide) (by decide)).2 (by decide)

end FixTimestamps

namespace FixTimestamps

/-- Claim C8: find_quote_position tries, in order and stopping at the first
success: exact normalized match; the 100-, 50- and 30-character normalized
prefixes (each step only when the quote is longer than that length); a
case-insensitive match of the first 50 characters; otherwise -1. -/
theorem find_quote_position_graduated (transcript quote_text ct cq : List Char)
    (hct : ct = clean_text_for_search transcript)
    (hcq : cq = clean_text_for_search quote_text) :
    (strFind ct cq ≠ -1 → find_quote_position transcript quote_text = strFind ct cq)
  ∧ (strFind ct cq = -1 → cq.length > 100 → strFind ct (cq.take 100) ≠ -1 →
      find_quote_position transcript quote_text = strFind ct (cq.take 100))
  ∧ (strFind ct cq = -1 → (cq.length > 100 → strFind ct (cq.take 100) = -1) →
      cq.length > 50 → strFind ct (cq.take 50) ≠ -1 →
      find_quote_position transcript quote_text = strFind ct (cq.take 50))
  ∧ (strFind ct cq = -1 → (cq.length > 100 → strFind ct (cq.take 100) = -1) →
      (cq.length > 50 → strFind ct (cq.take 50) = -1) →
      cq.length > 30 → strFind ct (cq.take 30) ≠ -1 →
      find_quote_position transcript quote_text = strFind ct (cq.take 30))
  ∧ (strFind ct cq = -1 → (cq.length > 100 → strFind ct (cq.take 100) = -1) →
      (cq.length > 50 → strFind ct (cq.take 50) = -1) →
      (cq.length > 30 → strFind ct (cq.take 30) = -1) →
      strFind (ct.map Char.toLower) ((cq.map Char.toLower).take 50) ≠ -1 →
      find_quote_position transcript quote_text =
        strFind (ct.map Char.toLower) ((cq.map Char.toLower).take 50))
  ∧ (strFind ct cq = -1 → (cq.length > 100 → strFind ct (cq.take 100) = -1) →
      (cq.length > 50 → strFind ct (cq.take 50) = -1) →
      (cq.length > 30 → strFind ct (cq.take 30) = -1) →
      strFind (ct.map Char.toLower) ((cq.map Char.toLower).take 50) = -1 →
      find_quote_position transcript quote_text = -1) := by
  subst hct
  subst hcq
  refine ⟨?_, ?_, ?_, ?_, ?_, ?_⟩ <;>
    (intros; simp only [find_quote_position]; split_ifs <;> simp_all)

end FixTimestamps

namespace FixTimestamps

/-- Witness for C8: a 120-character quote whose exact form is absent from
the transcript but whose 100-character normalized head is present, so the
second step of the cascade fires. -/
theorem find_quote_position_graduated_witness :
    find_quote_position (List.replicate 100 'a') (List.replicate 120 'a') =
      strFind (clean_text_for_search (List.replicate 100 'a'))
        ((clean_text_for_search (List.replicate 120 'a')).take 100) :=
  (find_quote_position_graduated (List.replicate 100 'a') (List.replicate 120 'a')
      _ _ rfl rfl).2.1 (by decide) (by decide) (by decide)

end FixTimestamps

namespace Pipeline

lemma translateLoop_some_strong (o : Oracle) : ∀ (quotes qs : List Quote),
    (translateLoop o quotes).1 = some qs →
    qs.length = quotes.length ∧
    ∀ q' ∈ qs, ∃ a b c, q'.text_ko = some a ∧ q'.text_zh = some b ∧ q'.text_es = some c ∧
      (∃ t, o Lang.ko t = some a) ∧ (∃ t, o Lang.zh t = some b) ∧ (∃ t, o Lang.es t = some c) := by
  intro quotes
  induction quotes with
  | nil =>
    intro qs h
    simp only [translateLoop] at h
    injection h with h
    subst h
    simp
  | cons q rest ih =>
    intro qs h
    simp only [translateLoop] at h
    cases hko : o Lang.ko q.text with
    | none => simp only [hko] at h; exact Option.noConfusion h
    | some a =>
      simp only [hko] at h
      cases hzh : o Lang.zh q.text with
      | none => simp only [hzh] at h; exact Option.noConfusion h
      | some b =>
        simp only [hzh] at h
        cases hes : o Lang.es q.text with
        | none => simp only [hes] at h; exact Option.noConfusion h
        | some c =>
          simp only [hes] at h
          cases hr : (translateLoop o rest).1 with
          | none => simp only [hr] at h; exact absurd h (by simp)
          | some qs' =>
            simp only [hr, Option.map_some'] at h
            injection h with h
            subst h
            rcases ih qs' hr with ⟨hlen, hfields⟩
            refine ⟨by simp [hlen], ?_⟩
            intro q' hq'
            rcases List.mem_cons.mp hq' with heq | hmem
            · subst heq
              exact ⟨a, b, c, rfl, rfl, rfl, ⟨q.text, hko⟩, ⟨q.text, hzh⟩, ⟨q.text, hes⟩⟩
            · exact hfields q' hmem

lemma translateAttempts_some (tr : Nat → Oracle) (quotes : List Quote) :
    ∀ (fuel k : Nat) (qs : List Quote) (c a : Nat),
      translateAttempts tr quotes fuel k = (some qs, c, a) →
      ∃ j, (translateLoop (tr j) quotes).1 = some qs := by
  intro fuel
  induction fuel with
  | zero => intro k qs c a h; simp [translateAttempts] at h
  | succ fuel ih =>
    intro k qs c a h
    simp only [translateAttempts] at h
    cases hr : (translateLoop (tr k) quotes).1 with
    | some qs0 =>
      simp only [hr] at h
      refine ⟨k, ?_⟩
      rw [hr, (Prod.mk.injEq _ _ _ _).mp h |>.1]
    | none =>
      simp only [hr] at h
      rcases hrec : translateAttempts tr quotes fuel (k + 1) with ⟨res, c2, a2⟩
      rw [hrec] at h
      have hres : res = some qs := ((Prod.mk.injEq _ _ _ _).mp h).1
      exact ih (k + 1) qs c2 a2 (by rw [hrec, hres])

/-- Claim C10: translate_single_file writes the quote file back exactly once,
after every quote has all three translations; if any per-quote call raises,
the on-disk file is left exactly as before, never partially translated. -/
theorem translate_single_file_atomic (o : Oracle) (quotes : List Quote) :
    ((translateLoop o quotes).1 = none → diskAfterTranslate o quotes = quotes)
  ∧ (∀ qs, (translateLoop o quotes).1 = some qs →
      diskAfterTranslate o quotes = qs ∧ qs.length = quotes.length ∧
      ∀ q' ∈ qs, q'.text_ko.isSome ∧ q'.text_zh.isSome ∧ q'.text_es.isSome) := by
  constructor
  · intro h
    unfold diskAfterTranslate
    rw [h]
  · intro qs h
    refine ⟨by unfold diskAfterTranslate; rw [h], ?_, ?_⟩
    · exact (translateLoop_some_strong o quotes qs h).1
    · intro q' hq'
      rcases (translateLoop_some_strong o quotes qs h).2 q' hq' with
        ⟨a, b, c, hka, hkb, hkc, _, _, _⟩
      exact ⟨by simp [hka], by simp [hkb], by simp [hkc]⟩

/-- Witness for C10: an oracle that raises on the very first call leaves the
one-quote file unchanged. -/
theorem translate_single_file_atomic_witness :
    diskAfterTranslate (fun _ _ => none) [{ text := ['h'] }] = [{ text := ['h'] }] :=
  (translate_single_file_atomic (fun _ _ => none) [{ text := ['h'] }]).1 (by decide)

end Pipeline

namespace Pipeline

/-- Counterexample to C5 as stated: a unit left extracted (not translated)
with its single quote already carrying a Korean value.  The later
orchestrator run (process_batch_translate via translate_single_file) issues
3 external calls - including one for the already populated Korean field -
and overwrites that populated value, re-translating the whole unit.  A
field-incremental run would have issued 2 calls and kept text_ko. -/
theorem field_incremental_retry_counterexample :
    (processUnitTranslate (fun _ _ => fun _ _ => some ['X']) 0
      { cm := { data := { freshPState with extracted_files := [0] }
                file := some { freshPState with extracted_files := [0] } }
        disk := fun g => if g = 0 then some [{ text := ['h'], text_ko := some ['d'] }] else none
        calls := 0 }).calls = 3
  ∧ (processUnitTranslate (fun _ _ => fun _ _ => some ['X']) 0
      { cm := { data := { freshPState with extracted_files := [0] }
                file := some { freshPState with extracted_files := [0] } }
        disk := fun g => if g = 0 then some [{ text := ['h'], text_ko := some ['d'] }] else none
        calls := 0 }).disk 0 =
      some [{ text := ['h'], text_ko := some ['X'], text_zh := some ['X'], text_es := some ['X'] }] := by
  constructor
  · decide
  · decide

end Pipeline

namespace FillMissing

lemma fillField_text (o : Oracle) (t0 : List Char) (q : Quote) (l : Lang) :
    (fillField o t0 q l).1.text = q.text := by
  unfold fillField
  split_ifs
  · cases o l t0 <;> cases l <;> simp [setField]
  · rfl

lemma fillField_other (o : Oracle) (t0 : List Char) (q : Quote) (l l2 : Lang)
    (h : l2 ≠ l) : getField (fillField o t0 q l).1 l2 = getField q l2 := by
  unfold fillField
  split_ifs
  · cases o l t0 <;> cases l <;> cases l2 <;> simp_all [setField, getField]
  · rfl

lemma fillField_not_missing (o : Oracle) (t0 : List Char) (q : Quote) (l : Lang)
    (h : is_missing_translation q l = false) : fillField o t0 q l = (q, []) := by
  simp [fillField, h]

lemma fillField_log (o : Oracle) (t0 : List Char) (q : Quote) (l : Lang) :
    ∀ p ∈ (fillField o t0 q l).2, p = (l, t0) ∧ is_missing_translation q l = true := by
  unfold fillField
  split_ifs with hm
  · cases o l t0 <;> simp_all
  · simp

lemma is_missing_fillField (o : Oracle) (t0 : List Char) (q : Quote) (l l2 : Lang)
    (h : l2 ≠ l) :
    is_missing_translation (fillField o t0 q l).1 l2 = is_missing_translation q l2 := by
  unfold is_missing_translation
  rw [fillField_other o t0 q l l2 h]

/-- Claim C5 (amended part): the dedicated repair pass of
fill_missing_translations_openai.py is field incremental: for every quote it
issues external calls only for (quote, field) pairs that are missing or
empty in the input, and it leaves every already populated field (and the
source text) unchanged; likewise over a whole quote file. -/
theorem fill_missing_incremental (o : Oracle) :
    (∀ q : Quote,
       (fillQuote o q).1.text = q.text
       ∧ (∀ lang, is_missing_translation q lang = false →
            getField (fillQuote o q).1 lang = getField q lang)
       ∧ (∀ lang t, (lang, t) ∈ (fillQuote o q).2 →
            is_missing_translation q lang = true ∧ t = q.text))
  ∧ (∀ quotes : List Quote,
       List.Forall₂ (fun q q' : Quote => q'.text = q.text ∧
           ∀ lang, is_missing_translation q lang = false →
             getField q' lang = getField q lang)
         quotes (process_quote_file o quotes).1
       ∧ (∀ lang t, (lang, t) ∈ (process_quote_file o quotes).2 →
            ∃ q ∈ quotes, is_missing_translation q lang = true ∧ t = q.text)) := by
  have hquote : ∀ q : Quote,
      (fillQuote o q).1.text = q.text
      ∧ (∀ lang, is_missing_translation q lang = false →
           getField (fillQuote o q).1 lang = getField q lang)
      ∧ (∀ lang t, (lang, t) ∈ (fillQuote o q).2 →
           is_missing_translation q lang = true ∧ t = q.text) := by
    intro q
    by_cases ht : q.text = []
    · refine ⟨?_, ?_, ?_⟩ <;> simp [fillQuote, ht]
    · have hfq1 : (fillQuote o q).1 =
          (fillField o q.text
            ((fillField o q.text ((fillField o q.text q Lang.ko).1) Lang.zh).1) Lang.es).1 := by
        unfold fillQuote; rw [if_neg ht]
      have hfq2 : (fillQuote o q).2 =
          (fillField o q.text q Lang.ko).2 ++
          (fillField o q.text ((fillField o q.text q Lang.ko).1) Lang.zh).2 ++
          (fillField o q.text
            ((fillField o q.text ((fillField o q.text q Lang.ko).1) Lang.zh).1) Lang.es).2 := by
        unfold fillQuote; rw [if_neg ht]
      refine ⟨?_, ?_, ?_⟩
      · rw [hfq1, fillField_text, fillField_text, fillField_text]
      · intro lang hmiss
        cases lang with
        | ko =>
          rw [hfq1,
            fillField_other o q.text
              ((fillField o q.text ((fillField o q.text q Lang.ko).1) Lang.zh).1)
              Lang.es Lang.ko (by decide),
            fillField_other o q.text ((fillField o q.text q Lang.ko).1)
              Lang.zh Lang.ko (by decide),
            fillField_not_missing o q.text q Lang.ko hmiss]
        | zh =>
          have h1 : is_missing_translation ((fillField o q.text q Lang.ko).1) Lang.zh = false := by
            rw [is_missing_fillField o q.text q Lang.ko Lang.zh (by decide)]; exact hmiss
          rw [hfq1,
            fillField_other o q.text
              ((fillField o q.text ((fillField o q.text q Lang.ko).1) Lang.zh).1)
              Lang.es Lang.zh (by decide),
            fillField_not_missing o q.text ((fillField o q.text q Lang.ko).1) Lang.zh h1]
          show getField ((fillField o q.text q Lang.ko).1) Lang.zh = getField q Lang.zh
          rw [fillField_other o q.text q Lang.ko Lang.zh (by decide)]
        | es =>
          have h1 : is_missing_translation
              ((fillField o q.text ((fillField o q.text q Lang.ko).1) Lang.zh).1) Lang.es = false := by
            rw [is_missing_fillField o q.text ((fillField o q.text q Lang.ko).1)
                  Lang.zh Lang.es (by decide),
                is_missing_fillField o q.text q Lang.ko Lang.es (by decide)]
            exact hmiss
          rw [hfq1,
            fillField_not_missing o q.text
              ((fillField o q.text ((fillField o q.text q Lang.ko).1) Lang.zh).1) Lang.es h1]
          show getField
              ((fillField o q.text ((fillField o q.text q Lang.ko).1) Lang.zh).1) Lang.es =
            getField q Lang.es
          rw [fillField_other o q.text ((fillField o q.text q Lang.ko).1)
                Lang.zh Lang.es (by decide),
              fillField_other o q.text q Lang.ko Lang.es (by decide)]
      · intro lang t hmem
        rw [hfq2] at hmem
        simp only [List.mem_append] at hmem
        rcases hmem with (h1 | h2) | h3
        · have := fillField_log o q.text q Lang.ko _ h1
          refine ⟨?_, ?_⟩ <;> simp_all
        · have := fillField_log o q.text ((fillField o q.text q Lang.ko).1) Lang.zh _ h2
          rw [is_missing_fillField o q.text q Lang.ko Lang.zh (by decide)] at this
          refine ⟨?_, ?_⟩ <;> simp_all
        · have := fillField_log o q.text
            ((fillField o q.text ((fillField o q.text q Lang.ko).1) Lang.zh).1) Lang.es _ h3
          rw [is_missing_fillField o q.text ((fillField o q.text q Lang.ko).1)
                Lang.zh Lang.es (by decide),
              is_missing_fillField o q.text q Lang.ko Lang.es (by decide)] at this
          refine ⟨?_, ?_⟩ <;> simp_all
  refine ⟨hquote, ?_⟩
  intro quotes
  induction quotes with
  | nil => simp [process_quote_file]
  | cons q rest ih =>
    rcases ih with ⟨ihf, ihl⟩
    constructor
    · refine List.Forall₂.cons ?_ ihf
      exact ⟨(hquote q).1, (hquote q).2.1⟩
    · intro lang t hmem
      simp only [process_quote_file, List.mem_append] at hmem
      rcases hmem with h1 | h2
      · exact ⟨q, List.mem_cons_self q rest, (hquote q).2.2 lang t h1⟩
      · rcases ihl lang t h2 with ⟨q0, hq0, hrest⟩
        exact ⟨q0, List.mem_cons_of_mem q hq0, hrest⟩

/-- Witness for C5 (amended): a quote with Korean already populated keeps
that value through the repair pass. -/
theorem fill_missing_incremental_witness :
    getField (fillQuote (fun _ _ => some ['N']) { text := ['h'], text_ko := some ['d'] }).1 Lang.ko =
      getField { text := ['h'], text_ko := some ['d'] : Quote } Lang.ko :=
  ((fill_missing_incremental (fun _ _ => some ['N'])).1
    { text := ['h'], text_ko := some ['d'] }).2.1 Lang.ko (by decide)

end FillMissing

namespace Pipeline

/-- Counterexample to C4 as stated: process_batch_translate has no
completion test.  A translation call that succeeds but returns the empty
string (content.strip() of a whitespace-only response) still lets
translate_single_file finish, so the unit is marked translated although its
quote has text_ko = "" (an empty target-language value). -/
theorem translation_completion_counterexample :
    0 ∈ (processUnitTranslate
        (fun _ _ => fun l _ => match l with | Lang.ko => some [] | _ => some ['x']) 0
        { cm := initCM
          disk := fun g => if g = 0 then some [{ text := ['h'] }] else none
          calls := 0 }).cm.data.translated_files
  ∧ (processUnitTranslate
        (fun _ _ => fun l _ => match l with | Lang.ko => some [] | _ => some ['x']) 0
        { cm := initCM
          disk := fun g => if g = 0 then some [{ text := ['h'] }] else none
          calls := 0 }).disk 0 =
      some [{ text := ['h'], text_ko := some [], text_zh := some ['x'], text_es := some ['x'] }] := by
  constructor
  · decide
  · decide

/-- Claim C4 (amended): the pipeline marks a unit translated exactly when an
attempt of translate_single_file succeeded, in which case every quote holds
the three strings the services returned; whenever every successful service
response is a non-empty string, every quote of a unit that gets marked
translated has non-empty values in text_ko, text_zh and text_es.  (Without
that assumption the code can mark a unit translated with an empty field, as
the counterexample shows: the code has no completion test of its own.) -/
theorem translated_mark_nonempty (tr : TransOracle) (f : Nat) (s : RunSt) (quotes : List Quote)
    (hne : ∀ k l t r, tr f k l t = some r → r ≠ [])
    (hnot : f ∉ s.cm.data.translated_files)
    (hdisk : s.disk f = some quotes)
    (hmark : f ∈ (processUnitTranslate tr f s).cm.data.translated_files) :
    ∃ qs, (processUnitTranslate tr f s).disk f = some qs ∧ qs.length = quotes.length ∧
      ∀ q' ∈ qs, (∃ a, q'.text_ko = some a ∧ a ≠ []) ∧
                 (∃ b, q'.text_zh = some b ∧ b ≠ []) ∧
                 (∃ c, q'.text_es = some c ∧ c ≠ []) := by
  have hskip : is_translated s.cm f = false := by
    simp [is_translated, hnot]
  unfold processUnitTranslate at hmark ⊢
  simp only [hskip, Bool.false_eq_true, if_false, hdisk] at hmark ⊢
  rcases hta : translateAttempts (tr f) quotes MAX_RETRIES 0 with ⟨res, c, a⟩
  rw [hta] at hmark
  cases res with
  | none =>
    exfalso
    apply hnot
    simpa [add_error, save] using hmark
  | some qs =>
    obtain ⟨j, hj⟩ := translateAttempts_some (tr f) quotes MAX_RETRIES 0 qs c a hta
    rcases translateLoop_some_strong (tr f j) quotes qs hj with ⟨hlen, hfields⟩
    refine ⟨qs, by simp, hlen, ?_⟩
    intro q' hq'
    rcases hfields q' hq' with ⟨a', b', c', ha, hb, hc, ⟨t1, ht1⟩, ⟨t2, ht2⟩, ⟨t3, ht3⟩⟩
    exact ⟨⟨a', ha, hne j Lang.ko t1 a' ht1⟩, ⟨b', hb, hne j Lang.zh t2 b' ht2⟩,
           ⟨c', hc, hne j Lang.es t3 c' ht3⟩⟩

/-- Witness for C4 (amended): a one-quote unit, services returning "x",
marked translated with all three fields non-empty. -/
theorem translated_mark_nonempty_witness :
    ∃ qs, (processUnitTranslate (fun _ _ => fun _ _ => some ['x']) 0
        { cm := initCM
          disk := fun g => if g = 0 then some [{ text := ['h'] }] else none
          calls := 0 }).disk 0 = some qs ∧ qs.length = 1 ∧
      ∀ q' ∈ qs, (∃ a, q'.text_ko = some a ∧ a ≠ []) ∧
                 (∃ b, q'.text_zh = some b ∧ b ≠ []) ∧
                 (∃ c, q'.text_es = some c ∧ c ≠ []) :=
  translated_mark_nonempty (fun _ _ => fun _ _ => some ['x']) 0
    { cm := initCM
      disk := fun g => if g = 0 then some [{ text := ['h'] }] else none
      calls := 0 }
    [{ text := ['h'] }]
    (fun _ _ _ r h => by cases h; decide) (by decide) (by decide) (by decide)

end Pipeline

namespace Pipeline

/-- Claim C2: mark_extracted and mark_translated are idempotent - a second
call with the same filename (whatever quote_count and cost it passes)
leaves the whole checkpoint state exactly as after the first call; and only
a first call for a filename appends it and adds to the counters. -/
theorem mark_idempotent (cm : CM) (f n : Nat) (c : ℚ) :
    (∀ n' c', mark_extracted (mark_extracted cm f n c) f n' c' = mark_extracted cm f n c)
  ∧ (∀ n' c', mark_translated (mark_translated cm f n c) f n' c' = mark_translated cm f n c)
  ∧ (f ∉ cm.data.extracted_files →
      (mark_extracted cm f n c).data.extracted_files = cm.data.extracted_files ++ [f]
      ∧ (mark_extracted cm f n c).data.total_quotes_extracted =
          cm.data.total_quotes_extracted + n
      ∧ (mark_extracted cm f n c).data.total_cost_usd = cm.data.total_cost_usd + c)
  ∧ (f ∉ cm.data.translated_files →
      (mark_translated cm f n c).data.translated_files = cm.data.translated_files ++ [f]
      ∧ (mark_translated cm f n c).data.total_quotes_translated =
          cm.data.total_quotes_translated + n
      ∧ (mark_translated cm f n c).data.total_cost_usd = cm.data.total_cost_usd + c) := by
  refine ⟨?_, ?_, ?_, ?_⟩
  · intro n' c'
    by_cases hf : f ∈ cm.data.extracted_files
    · simp [mark_extracted, save, hf]
    · simp [mark_extracted, save, hf]
  · intro n' c'
    by_cases hf : f ∈ cm.data.translated_files
    · simp [mark_translated, save, hf]
    · simp [mark_translated, save, hf]
  · intro hf
    simp [mark_extracted, save, hf]
  · intro hf
    simp [mark_translated, save, hf]

/-- Witness for C2: marking file 5 on a fresh manager appends it and adds
the counters. -/
theorem mark_idempotent_witness :
    (mark_extracted initCM 5 7 (2/100)).data.extracted_files =
        initCM.data.extracted_files ++ [5]
    ∧ (mark_extracted initCM 5 7 (2/100)).data.total_quotes_extracted =
        initCM.data.total_quotes_extracted + 7
    ∧ (mark_extracted initCM 5 7 (2/100)).data.total_cost_usd =
        initCM.data.total_cost_usd + 2/100 :=
  (mark_idempotent initCM 5 7 (2/100)).2.2.1 (by decide)

end Pipeline

namespace Pipeline

lemma firstExtractCount_append_found (f : Nat) : ∀ (xs ys : List Op),
    hasMarkE xs f = true →
    firstExtractCount (xs ++ ys) f = firstExtractCount xs f := by
  intro xs
  induction xs with
  | nil => intro ys h; simp [hasMarkE] at h
  | cons op rest ih =>
    intro ys h
    cases op with
    | markExtracted g m c =>
      by_cases hg : g = f
      · simp [firstExtractCount, hg]
      · have h' : hasMarkE rest f = true := by simpa [hasMarkE, hg] using h
        simp [firstExtractCount, hg, ih ys h']
    | markTranslated g m c =>
      have h' : hasMarkE rest f = true := by simpa [hasMarkE] using h
      simpa [firstExtractCount] using ih ys h'
    | addError e =>
      have h' : hasMarkE rest f = true := by simpa [hasMarkE] using h
      simpa [firstExtractCount] using ih ys h'
    | load =>
      have h' : hasMarkE rest f = true := by simpa [hasMarkE] using h
      simpa [firstExtractCount] using ih ys h'

lemma firstExtractCount_append_not_found (f : Nat) : ∀ (xs ys : List Op),
    hasMarkE xs f = false →
    firstExtractCount (xs ++ ys) f = firstExtractCount ys f := by
  intro xs
  induction xs with
  | nil => intro ys _; simp
  | cons op rest ih =>
    intro ys h
    cases op with
    | markExtracted g m c =>
      have hg : ¬g = f := by
        intro hgf
        simp [hasMarkE, hgf] at h
      have h' : hasMarkE rest f = false := by simpa [hasMarkE, hg] using h
      simp [firstExtractCount, hg, ih ys h']
    | markTranslated g m c =>
      have h' : hasMarkE rest f = false := by simpa [hasMarkE] using h
      simpa [firstExtractCount] using ih ys h'
    | addError e =>
      have h' : hasMarkE rest f = false := by simpa [hasMarkE] using h
      simpa [firstExtractCount] using ih ys h'
    | load =>
      have h' : hasMarkE rest f = false := by simpa [hasMarkE] using h
      simpa [firstExtractCount] using ih ys h'

lemma hasMarkE_append (xs ys : List Op) (f : Nat) :
    hasMarkE (xs ++ ys) f = (hasMarkE xs f || hasMarkE ys f) := by
  simp [hasMarkE, List.any_append]

lemma applyOps_inv (ops : List Op) : ∀ (pref : List Op) (cm : CM),
    (cm.file = some cm.data ∨ (cm.file = none ∧ cm.data = freshPState)) →
    cm.data.extracted_files.Nodup →
    (∀ g, g ∈ cm.data.extracted_files ↔ hasMarkE pref g = true) →
    cm.data.total_quotes_extracted =
      (cm.data.extracted_files.map (firstExtractCount pref)).sum →
    ((applyOps ops cm).file = some (applyOps ops cm).data ∨
       ((applyOps ops cm).file = none ∧ (applyOps ops cm).data = freshPState))
    ∧ (applyOps ops cm).data.extracted_files.Nodup
    ∧ (∀ g, g ∈ (applyOps ops cm).data.extracted_files ↔ hasMarkE (pref ++ ops) g = true)
    ∧ (applyOps ops cm).data.total_quotes_extracted =
        ((applyOps ops cm).data.extracted_files.map (firstExtractCount (pref ++ ops))).sum := by
  induction ops with
  | nil =>
    intro pref cm hfile hnodup hmem hsum
    simpa [applyOps] using ⟨hfile, hnodup, hmem, hsum⟩
  | cons op rest ih =>
    intro pref cm hfile hnodup hmem hsum
    have hmaps : ∀ g, g ∈ cm.data.extracted_files →
        firstExtractCount (pref ++ [op]) g = firstExtractCount pref g := by
      intro g hg
      exact firstExtractCount_append_found g pref [op] ((hmem g).mp hg)
    have hstep :
        ((applyOp cm op).file = some (applyOp cm op).data ∨
           ((applyOp cm op).file = none ∧ (applyOp cm op).data = freshPState))
        ∧ (applyOp cm op).data.extracted_files.Nodup
        ∧ (∀ g, g ∈ (applyOp cm op).data.extracted_files ↔
             hasMarkE (pref ++ [op]) g = true)
        ∧ (applyOp cm op).data.total_quotes_extracted =
            ((applyOp cm op).data.extracted_files.map
              (firstExtractCount (pref ++ [op]))).sum := by
      cases op with
      | markExtracted f m c =>
        by_cases hf : f ∈ cm.data.extracted_files
        · refine ⟨by simp [applyOp, mark_extracted, save, hf], ?_, ?_, ?_⟩
          · simpa [applyOp, mark_extracted, save, hf] using hnodup
          · intro g
            simp only [applyOp, mark_extracted, save, if_pos hf]
            rw [hasMarkE_append]
            constructor
            · intro hg
              rw [(hmem g).mp hg]
              simp
            · intro hg
              rcases Bool.or_eq_true_iff.mp hg with h1 | h1
              · exact (hmem g).mpr h1
              · have : f = g := by simpa [hasMarkE] using h1
                rw [← this]
                exact hf
          · simp only [applyOp, mark_extracted, save, if_pos hf]
            rw [List.map_congr_left (fun g hg => hmaps g hg)]
            exact hsum
        · have hnof : hasMarkE pref f = false := by
            cases hx : hasMarkE pref f
            · rfl
            · exact absurd ((hmem f).mpr hx) hf
          refine ⟨by simp [applyOp, mark_extracted, save, hf], ?_, ?_, ?_⟩
          · simp only [applyOp, mark_extracted, save, if_neg hf]
            simp [List.nodup_append, hnodup, hf]
          · intro g
            simp only [applyOp, mark_extracted, save, if_neg hf, List.mem_append,
              List.mem_singleton]
            rw [hasMarkE_append]
            constructor
            · intro hg
              rcases hg with h1 | h1
              · rw [(hmem g).mp h1]; simp
              · subst h1
                simp [hasMarkE]
            · intro hg
              rcases Bool.or_eq_true_iff.mp hg with h1 | h1
              · exact Or.inl ((hmem g).mpr h1)
              · have : f = g := by simpa [hasMarkE] using h1
                exact Or.inr this.symm
          · simp only [applyOp, mark_extracted, save, if_neg hf, List.map_append,
              List.sum_append, List.map_singleton, List.sum_singleton]
            rw [List.map_congr_left (fun g hg => hmaps g hg)]
            have hfc : firstExtractCount (pref ++ [Op.markExtracted f m c]) f = m := by
              rw [firstExtractCount_append_not_found f pref _ hnof]
              simp [firstExtractCount]
            rw [hfc, hsum]
      | markTranslated f m c =>
        refine ⟨by simp [applyOp, mark_translated, save], ?_, ?_, ?_⟩
        · have : (applyOp cm (Op.markTranslated f m c)).data.extracted_files =
              cm.data.extracted_files := by
            by_cases hf : f ∈ cm.data.translated_files <;>
              simp [applyOp, mark_translated, save, hf]
          rw [this]; exact hnodup
        · intro g
          have : (applyOp cm (Op.markTranslated f m c)).data.extracted_files =
              cm.data.extracted_files := by
            by_cases hf : f ∈ cm.data.translated_files <;>
              simp [applyOp, mark_translated, save, hf]
          rw [this, hasMarkE_append]
          constructor
          · intro hg; rw [(hmem g).mp hg]; simp
          · intro hg
            rcases Bool.or_eq_true_iff.mp hg with h1 | h1
            · exact (hmem g).mpr h1
            · simp [hasMarkE] at h1
        · have he : (applyOp cm (Op.markTranslated f m c)).data.extracted_files =
              cm.data.extracted_files := by
            by_cases hf : f ∈ cm.data.translated_files <;>
              simp [applyOp, mark_translated, save, hf]
          have hq : (applyOp cm (Op.markTranslated f m c)).data.total_quotes_extracted =
              cm.data.total_quotes_extracted := by
            by_cases hf : f ∈ cm.data.translated_files <;>
              simp [applyOp, mark_translated, save, hf]
          rw [he, hq, List.map_congr_left (fun g hg => hmaps g hg)]
          exact hsum
      | addError e =>
        refine ⟨by simp [applyOp, add_error, save], ?_, ?_, ?_⟩
        · simpa [applyOp, add_error, save] using hnodup
        · intro g
          simp only [applyOp, add_error, save]
          rw [hasMarkE_append]
          constructor
          · intro hg; rw [(hmem g).mp hg]; simp
          · intro hg
            rcases Bool.or_eq_true_iff.mp hg with h1 | h1
            · exact (hmem g).mpr h1
            · simp [hasMarkE] at h1
        · simp only [applyOp, add_error, save]
          rw [List.map_congr_left (fun g hg => hmaps g hg)]
          exact hsum
      | load =>
        have hdata : (applyOp cm Op.load).data = cm.data := by
          rcases hfile with h | ⟨h1, h2⟩
          · simp [applyOp, loadCM, h]
          · simp [applyOp, loadCM, h1, h2]
        have hfile2 : (applyOp cm Op.load).file = cm.file := by
          simp [applyOp, loadCM]
        refine ⟨?_, ?_, ?_, ?_⟩
        · rw [hdata, hfile2]; exact hfile
        · rw [hdata]; exact hnodup
        · intro g
          rw [hdata, hasMarkE_append]
          constructor
          · intro hg; rw [(hmem g).mp hg]; simp
          · intro hg
            rcases Bool.or_eq_true_iff.mp hg with h1 | h1
            · exact (hmem g).mpr h1
            · simp [hasMarkE] at h1
        · rw [hdata, List.map_congr_left (fun g hg => hmaps g hg)]
          exact hsum
    have := ih (pref ++ [op]) (applyOp cm op) hstep.1 hstep.2.1 hstep.2.2.1 hstep.2.2.2
    simpa [applyOps, List.append_assoc] using this

/-- Claim C3: after any sequence of mark_extracted, mark_translated,
add_error and load operations starting from a fresh checkpoint (load models
interrupting the process and constructing a new manager over the persisted
file), the extracted_files list holds distinct filenames and
total_quotes_extracted equals the sum, over the filenames in
extracted_files, of the quote_count passed with the first mark_extracted
for that filename. -/
theorem counter_consistency (ops : List Op) :
    (applyOps ops initCM).data.extracted_files.Nodup
    ∧ (applyOps ops initCM).data.total_quotes_extracted =
        ((applyOps ops initCM).data.extracted_files.map (firstExtractCount ops)).sum := by
  have h := applyOps_inv ops [] initCM (Or.inr ⟨rfl, rfl⟩)
    (by simp [initCM, loadCM, freshPState])
    (by intro g; simp [initCM, loadCM, freshPState, hasMarkE])
    (by simp [initCM, loadCM, freshPState])
  exact ⟨h.2.1, by simpa using h.2.2.2⟩

end Pipeline

namespace Pipeline

lemma attemptLoop_le {α : Type} (g : Nat → Option α) :
    ∀ (fuel base : Nat), (attemptLoop g base fuel).2 ≤ fuel := by
  intro fuel
  induction fuel with
  | zero => intro base; simp [attemptLoop]
  | succ fuel ih =>
    intro base
    simp only [attemptLoop]
    cases g base with
    | some a => simp
    | none => simpa using ih (base + 1)

lemma translateAttempts_le (tr : Nat → Oracle) (quotes : List Quote) :
    ∀ (fuel k : Nat), (translateAttempts tr quotes fuel k).2.2 ≤ fuel := by
  intro fuel
  induction fuel with
  | zero => intro k; simp [translateAttempts]
  | succ fuel ih =>
    intro k
    simp only [translateAttempts]
    cases (translateLoop (tr k) quotes).1 with
    | some qs => simp
    | none => simpa using ih (k + 1)

/-- Claim C6: within one run each stage operation on a unit is attempted at
most MAX_RETRIES = 3 times; when every attempt raises, exactly one
permanent-failure entry is appended via add_error, the unit is not marked
(its status list and counter are unchanged, and for extraction nothing is
written to disk), and the batch loop simply continues with the remaining
units instead of aborting. -/
theorem bounded_retry_skip (eo : ExtractOracle) (tr : TransOracle) (f : Nat) (s : RunSt)
    (quotes : List Quote) (rest : List Nat) :
    ((attemptLoop (eo f) 0 MAX_RETRIES).2 ≤ MAX_RETRIES)
  ∧ ((translateAttempts (tr f) quotes MAX_RETRIES 0).2.2 ≤ MAX_RETRIES)
  ∧ (is_extracted s.cm f = false → (attemptLoop (eo f) 0 MAX_RETRIES).1 = none →
      (processUnitExtract eo f s).cm.data.errors = s.cm.data.errors ++ [(false, f)]
      ∧ (processUnitExtract eo f s).cm.data.extracted_files = s.cm.data.extracted_files
      ∧ (processUnitExtract eo f s).cm.data.total_quotes_extracted =
          s.cm.data.total_quotes_extracted
      ∧ (processUnitExtract eo f s).disk = s.disk)
  ∧ (is_translated s.cm f = false → s.disk f = some quotes →
      (translateAttempts (tr f) quotes MAX_RETRIES 0).1 = none →
      (processUnitTranslate tr f s).cm.data.errors = s.cm.data.errors ++ [(true, f)]
      ∧ (processUnitTranslate tr f s).cm.data.translated_files = s.cm.data.translated_files
      ∧ (processUnitTranslate tr f s).cm.data.total_quotes_translated =
          s.cm.data.total_quotes_translated
      ∧ (processUnitTranslate tr f s).disk = s.disk)
  ∧ (processBatchExtract eo (f :: rest) s =
      processBatchExtract eo rest (processUnitExtract eo f s))
  ∧ (processBatchTranslate tr (f :: rest) s =
      processBatchTranslate tr rest (processUnitTranslate tr f s)) := by
  refine ⟨attemptLoop_le (eo f) MAX_RETRIES 0, translateAttempts_le (tr f) quotes MAX_RETRIES 0,
    ?_, ?_, rfl, rfl⟩
  · intro hskip hfail
    unfold processUnitExtract
    simp only [hskip, Bool.false_eq_true, if_false]
    rcases hal : attemptLoop (eo f) 0 MAX_RETRIES with ⟨res, k⟩
    cases res with
    | some a =>
      rw [hal] at hfail
      exact absurd hfail (by simp)
    | none =>
      refine ⟨?_, ?_, ?_, ?_⟩ <;> simp [add_error, save]
  · intro hskip hdisk hfail
    unfold processUnitTranslate
    simp only [hskip, Bool.false_eq_true, if_false, hdisk]
    rcases hal : translateAttempts (tr f) quotes MAX_RETRIES 0 with ⟨res, c, a⟩
    cases res with
    | some qs =>
      rw [hal] at hfail
      exact absurd hfail (by simp)
    | none =>
      refine ⟨?_, ?_, ?_, ?_⟩ <;> simp [add_error, save]

/-- Witness for C6: an extraction service that always raises; the unit is
skipped after three attempts with exactly one error entry. -/
theorem bounded_retry_skip_witness :
    (processUnitExtract (fun _ _ => none) 7
        { cm := initCM, disk := fun _ => none, calls := 0 }).cm.data.errors =
      ({ cm := initCM, disk := fun _ => none, calls := 0 } : RunSt).cm.data.errors ++ [(false, 7)]
    ∧ (processUnitExtract (fun _ _ => none) 7
        { cm := initCM, disk := fun _ => none, calls := 0 }).cm.data.extracted_files =
      ({ cm := initCM, disk := fun _ => none, calls := 0 } : RunSt).cm.data.extracted_files
    ∧ (processUnitExtract (fun _ _ => none) 7
        { cm := initCM, disk := fun _ => none, calls := 0 }).cm.data.total_quotes_extracted =
      ({ cm := initCM, disk := fun _ => none, calls := 0 } : RunSt).cm.data.total_quotes_extracted
    ∧ (processUnitExtract (fun _ _ => none) 7
        { cm := initCM, disk := fun _ => none, calls := 0 }).disk =
      ({ cm := initCM, disk := fun _ => none, calls := 0 } : RunSt).disk :=
  (bounded_retry_skip (fun _ _ => none) (fun _ _ => fun _ _ => none) 7
    { cm := initCM, disk := fun _ => none, calls := 0 } [] []).2.2.1 (by decide) (by decide)

end Pipeline

namespace Pipeline

/-- Run-state invariant: the checkpoint file mirrors the in-memory data
(save runs after every mutation) and every extracted unit has its quote
file on disk. -/
def GoodSt (s : RunSt) : Prop :=
  s.cm.file = some s.cm.data ∧ ∀ g, g ∈ s.cm.data.extracted_files → s.disk g ≠ none

lemma unitExtract_props (eo : ExtractOracle) (f : Nat) (s : RunSt) (hg : GoodSt s) :
    GoodSt (processUnitExtract eo f s)
    ∧ (∃ t, (processUnitExtract eo f s).cm.data.errors = s.cm.data.errors ++ t)
    ∧ (∀ g, g ∈ s.cm.data.extracted_files →
        g ∈ (processUnitExtract eo f s).cm.data.extracted_files)
    ∧ (processUnitExtract eo f s).cm.data.translated_files = s.cm.data.translated_files
    ∧ (processUnitExtract eo f s).cm.data.start_time = s.cm.data.start_time
    ∧ ((processUnitExtract eo f s).cm.data.errors = s.cm.data.errors →
        f ∈ (processUnitExtract eo f s).cm.data.extracted_files) := by
  by_cases hf : is_extracted s.cm f = true
  · have hres : processUnitExtract eo f s = s := by
      simp [processUnitExtract, hf]
    rw [hres]
    refine ⟨hg, ⟨[], by simp⟩, fun g hgm => hgm, rfl, rfl, fun _ => ?_⟩
    simpa [is_extracted] using hf
  · have hf' : is_extracted s.cm f = false := Bool.eq_false_iff.mpr hf
    have hnotmem : f ∉ s.cm.data.extracted_files := by
      simpa [is_extracted] using hf'
    unfold processUnitExtract
    simp only [hf', Bool.false_eq_true, if_false]
    rcases hal : attemptLoop (eo f) 0 MAX_RETRIES with ⟨res, k⟩
    cases res with
    | some quotes =>
      refine ⟨⟨?_, ?_⟩, ⟨[], by simp [mark_extracted, save, hnotmem]⟩, ?_, ?_, ?_, ?_⟩
      · simp [mark_extracted, save]
      · intro g hgm
        simp only [mark_extracted, save, if_neg hnotmem] at hgm
        simp only [List.mem_append, List.mem_singleton] at hgm
        by_cases hgf : g = f
        · subst hgf
          simp
        · rcases hgm with h1 | h1
          · have := hg.2 g h1
            simpa [hgf] using this
          · exact absurd h1 hgf
      · intro g hgm
        simp [mark_extracted, save, hnotmem, hgm]
      · simp [mark_extracted, save, hnotmem]
      · simp [mark_extracted, save, hnotmem]
      · intro _
        simp [mark_extracted, save, hnotmem]
    | none =>
      refine ⟨⟨?_, ?_⟩, ⟨[(false, f)], by simp [add_error, save]⟩, ?_, ?_, ?_, ?_⟩
      · simp [add_error, save]
      · intro g hgm
        simp only [add_error, save] at hgm
        exact hg.2 g hgm
      · intro g hgm
        simpa [add_error, save] using hgm
      · simp [add_error, save]
      · simp [add_error, save]
      · intro habs
        exfalso
        simp only [add_error, save] at habs
        have := congrArg List.length habs
        simp at this

lemma unitTranslate_props (tr : TransOracle) (f : Nat) (s : RunSt) (hg : GoodSt s) :
    GoodSt (processUnitTranslate tr f s)
    ∧ (∃ t, (processUnitTranslate tr f s).cm.data.errors = s.cm.data.errors ++ t)
    ∧ (processUnitTranslate tr f s).cm.data.extracted_files = s.cm.data.extracted_files
    ∧ (∀ g, g ∈ s.cm.data.translated_files →
        g ∈ (processUnitTranslate tr f s).cm.data.translated_files)
    ∧ (processUnitTranslate tr f s).cm.data.start_time = s.cm.data.start_time
    ∧ (f ∈ s.cm.data.extracted_files →
        (processUnitTranslate tr f s).cm.data.errors = s.cm.data.errors →
        f ∈ (processUnitTranslate tr f s).cm.data.translated_files) := by
  by_cases hf : is_translated s.cm f = true
  · have hres : processUnitTranslate tr f s = s := by
      simp [processUnitTranslate, hf]
    rw [hres]
    refine ⟨hg, ⟨[], by simp⟩, rfl, fun g hgm => hgm, rfl, fun _ _ => ?_⟩
    simpa [is_translated] using hf
  · have hf' : is_translated s.cm f = false := Bool.eq_false_iff.mpr hf
    have hnotmem : f ∉ s.cm.data.translated_files := by
      simpa [is_translated] using hf'
    unfold processUnitTranslate
    simp only [hf', Bool.false_eq_true, if_false]
    cases hdisk : s.disk f with
    | none =>
      refine ⟨hg, ⟨[], by simp⟩, rfl, fun g hgm => hgm, rfl, fun hfe _ => ?_⟩
      exact absurd hdisk (hg.2 f hfe)
    | some quotes =>
      rcases hal : translateAttempts (tr f) quotes MAX_RETRIES 0 with ⟨res, c, a⟩
      cases res with
      | some qs =>
        simp only [hal]
        refine ⟨⟨?_, ?_⟩, ⟨[], by simp [mark_translated, save, hnotmem]⟩, ?_, ?_, ?_, ?_⟩
        · simp [mark_translated, save]
        · intro g hgm
          simp only [mark_translated, save, if_neg hnotmem] at hgm
          by_cases hgf : g = f
          · subst hgf
            simp
          · have := hg.2 g (by simpa using hgm)
            simpa [hgf] using this
        · simp [mark_translated, save, hnotmem]
        · intro g hgm
          simp [mark_translated, save, hnotmem, hgm]
        · simp [mark_translated, save, hnotmem]
        · intro _ _
          simp [mark_translated, save, hnotmem]
      | none =>
        simp only [hal]
        refine ⟨⟨?_, ?_⟩, ⟨[(true, f)], by simp [add_error, save]⟩, ?_, ?_, ?_, ?_⟩
        · simp [add_error, save]
        · intro g hgm
          simp only [add_error, save] at hgm
          exact hg.2 g hgm
        · simp [add_error, save]
        · intro g hgm
          simpa [add_error, save] using hgm
        · simp [add_error, save]
        · intro _ habs
          exfalso
          simp only [add_error, save] at habs
          have := congrArg List.length habs
          simp at this

end Pipeline

namespace Pipeline

lemma append_append_eq_self {α : Type} (l t1 t2 : List α) (h : l ++ t1 ++ t2 = l) :
    t1 = [] ∧ t2 = [] := by
  rw [List.append_assoc] at h
  have hlen := congrArg List.length h
  simp only [List.length_append] at hlen
  have h1 : t1.length = 0 := by omega
  have h2 : t2.length = 0 := by omega
  exact ⟨List.length_eq_zero.mp h1, List.length_eq_zero.mp h2⟩

lemma batchExtract_props (eo : ExtractOracle) : ∀ (batch : List Nat) (s : RunSt), GoodSt s →
    GoodSt (processBatchExtract eo batch s)
    ∧ (∃ t, (processBatchExtract eo batch s).cm.data.errors = s.cm.data.errors ++ t)
    ∧ (∀ g, g ∈ s.cm.data.extracted_files →
        g ∈ (processBatchExtract eo batch s).cm.data.extracted_files)
    ∧ (processBatchExtract eo batch s).cm.data.translated_files = s.cm.data.translated_files
    ∧ (processBatchExtract eo batch s).cm.data.start_time = s.cm.data.start_time
    ∧ ((processBatchExtract eo batch s).cm.data.errors = s.cm.data.errors →
        ∀ f, f ∈ batch → f ∈ (processBatchExtract eo batch s).cm.data.extracted_files) := by
  intro batch
  induction batch with
  | nil =>
    intro s hg
    refine ⟨hg, ⟨[], by simp [processBatchExtract]⟩, fun g h => h, rfl, rfl, ?_⟩
    intro _ f hf
    simp at hf
  | cons f fs ih =>
    intro s hg
    have hu := unitExtract_props eo f s hg
    rcases hu with ⟨hg1, ⟨t1, ht1⟩, hmono1, htl1, hst1, hmark1⟩
    have hb := ih (processUnitExtract eo f s) hg1
    rcases hb with ⟨hg2, ⟨t2, ht2⟩, hmono2, htl2, hst2, hmark2⟩
    have hfold : processBatchExtract eo (f :: fs) s =
        processBatchExtract eo fs (processUnitExtract eo f s) := rfl
    rw [hfold]
    refine ⟨hg2, ⟨t1 ++ t2, by rw [ht2, ht1, List.append_assoc]⟩,
      fun g hgm => hmono2 g (hmono1 g hgm), by rw [htl2, htl1], by rw [hst2, hst1], ?_⟩
    intro heq f0 hf0
    have h0 : s.cm.data.errors ++ t1 ++ t2 = s.cm.data.errors := by
      rw [← ht1, ← ht2]
      exact heq
    rcases append_append_eq_self _ _ _ h0 with ⟨he1, he2⟩
    have herr1 : (processUnitExtract eo f s).cm.data.errors = s.cm.data.errors := by
      rw [ht1, he1, List.append_nil]
    have herr2 : (processBatchExtract eo fs (processUnitExtract eo f s)).cm.data.errors =
        (processUnitExtract eo f s).cm.data.errors := by
      rw [ht2, he2, List.append_nil]
    rcases List.mem_cons.mp hf0 with h | h
    · subst h
      exact hmono2 f0 (hmark1 herr1)
    · exact hmark2 herr2 f0 h

lemma batchTranslate_props (tr : TransOracle) : ∀ (batch : List Nat) (s : RunSt), GoodSt s →
    GoodSt (processBatchTranslate tr batch s)
    ∧ (∃ t, (processBatchTranslate tr batch s).cm.data.errors = s.cm.data.errors ++ t)
    ∧ (processBatchTranslate tr batch s).cm.data.extracted_files = s.cm.data.extracted_files
    ∧ (∀ g, g ∈ s.cm.data.translated_files →
        g ∈ (processBatchTranslate tr batch s).cm.data.translated_files)
    ∧ (processBatchTranslate tr batch s).cm.data.start_time = s.cm.data.start_time
    ∧ ((∀ f, f ∈ batch → f ∈ s.cm.data.extracted_files) →
        (processBatchTranslate tr batch s).cm.data.errors = s.cm.data.errors →
        ∀ f, f ∈ batch → f ∈ (processBatchTranslate tr batch s).cm.data.translated_files) := by
  intro batch
  induction batch with
  | nil =>
    intro s hg
    refine ⟨hg, ⟨[], by simp [processBatchTranslate]⟩, rfl, fun g h => h, rfl, ?_⟩
    intro _ _ f hf
    simp at hf
  | cons f fs ih =>
    intro s hg
    have hu := unitTranslate_props tr f s hg
    rcases hu with ⟨hg1, ⟨t1, ht1⟩, hex1, hmono1, hst1, hmark1⟩
    have hb := ih (processUnitTranslate tr f s) hg1
    rcases hb with ⟨hg2, ⟨t2, ht2⟩, hex2, hmono2, hst2, hmark2⟩
    have hfold : processBatchTranslate tr (f :: fs) s =
        processBatchTranslate tr fs (processUnitTranslate tr f s) := rfl
    rw [hfold]
    refine ⟨hg2, ⟨t1 ++ t2, by rw [ht2, ht1, List.append_assoc]⟩, by rw [hex2, hex1],
      fun g hgm => hmono2 g (hmono1 g hgm), by rw [hst2, hst1], ?_⟩
    intro hbatch heq f0 hf0
    have h0 : s.cm.data.errors ++ t1 ++ t2 = s.cm.data.errors := by
      rw [← ht1, ← ht2]
      exact heq
    rcases append_append_eq_self _ _ _ h0 with ⟨he1, he2⟩
    have herr1 : (processUnitTranslate tr f s).cm.data.errors = s.cm.data.errors := by
      rw [ht1, he1, List.append_nil]
    have herr2 : (processBatchTranslate tr fs (processUnitTranslate tr f s)).cm.data.errors =
        (processUnitTranslate tr f s).cm.data.errors := by
      rw [ht2, he2, List.append_nil]
    rcases List.mem_cons.mp hf0 with h | h
    · subst h
      exact hmono2 f0 (hmark1 (hbatch f0 (List.mem_cons_self f0 fs)) herr1)
    · refine hmark2 ?_ herr2 f0 h
      intro f1 hf1
      rw [hex1]
      exact hbatch f1 (List.mem_cons_of_mem f hf1)

lemma runBatch_props (eo : ExtractOracle) (tr : TransOracle) (batch : List Nat) (s : RunSt)
    (hg : GoodSt s) :
    GoodSt (runBatch eo tr batch s)
    ∧ (∃ t, (runBatch eo tr batch s).cm.data.errors = s.cm.data.errors ++ t)
    ∧ (∀ g, g ∈ s.cm.data.extracted_files → g ∈ (runBatch eo tr batch s).cm.data.extracted_files)
    ∧ (∀ g, g ∈ s.cm.data.translated_files → g ∈ (runBatch eo tr batch s).cm.data.translated_files)
    ∧ (runBatch eo tr batch s).cm.data.start_time = s.cm.data.start_time
    ∧ ((runBatch eo tr batch s).cm.data.errors = s.cm.data.errors →
        ∀ f, f ∈ batch →
          f ∈ (runBatch eo tr batch s).cm.data.extracted_files ∧
          f ∈ (runBatch eo tr batch s).cm.data.translated_files) := by
  rcases batchExtract_props eo batch s hg with ⟨hg1, ⟨t1, ht1⟩, hmono1, htl1, hst1, hmark1⟩
  rcases batchTranslate_props tr batch (processBatchExtract eo batch s) hg1 with
    ⟨hg2, ⟨t2, ht2⟩, hex2, hmono2, hst2, hmark2⟩
  have hfold : runBatch eo tr batch s =
      processBatchTranslate tr batch (processBatchExtract eo batch s) := rfl
  rw [hfold]
  refine ⟨hg2, ⟨t1 ++ t2, by rw [ht2, ht1, List.append_assoc]⟩, ?_, ?_, by rw [hst2, hst1], ?_⟩
  · intro g hgm
    rw [hex2]
    exact hmono1 g hgm
  · intro g hgm
    rw [← htl1] at hgm
    exact hmono2 g hgm
  · intro heq f hf
    have h0 : s.cm.data.errors ++ t1 ++ t2 = s.cm.data.errors := by
      rw [← ht1, ← ht2]
      exact heq
    rcases append_append_eq_self _ _ _ h0 with ⟨he1, he2⟩
    have herr1 : (processBatchExtract eo batch s).cm.data.errors = s.cm.data.errors := by
      rw [ht1, he1, List.append_nil]
    have herr2 : (processBatchTranslate tr batch (processBatchExtract eo batch s)).cm.data.errors =
        (processBatchExtract eo batch s).cm.data.errors := by
      rw [ht2, he2, List.append_nil]
    constructor
    · rw [hex2]
      exact hmark1 herr1 f hf
    · exact hmark2 (fun f1 hf1 => hmark1 herr1 f1 hf1) herr2 f hf

lemma runBatches_props (eo : ExtractOracle) (tr : TransOracle) :
    ∀ (batches : List (List Nat)) (s : RunSt), GoodSt s →
    GoodSt (batches.foldl (fun s b => runBatch eo tr b s) s)
    ∧ (∃ t, (batches.foldl (fun s b => runBatch eo tr b s) s).cm.data.errors =
        s.cm.data.errors ++ t)
    ∧ (∀ g, g ∈ s.cm.data.extracted_files →
        g ∈ (batches.foldl (fun s b => runBatch eo tr b s) s).cm.data.extracted_files)
    ∧ (∀ g, g ∈ s.cm.data.translated_files →
        g ∈ (batches.foldl (fun s b => runBatch eo tr b s) s).cm.data.translated_files)
    ∧ (batches.foldl (fun s b => runBatch eo tr b s) s).cm.data.start_time =
        s.cm.data.start_time
    ∧ ((batches.foldl (fun s b => runBatch eo tr b s) s).cm.data.errors = s.cm.data.errors →
        ∀ f, f ∈ batches.join →
          f ∈ (batches.foldl (fun s b => runBatch eo tr b s) s).cm.data.extracted_files ∧
          f ∈ (batches.foldl (fun s b => runBatch eo tr b s) s).cm.data.translated_files) := by
  intro batches
  induction batches with
  | nil =>
    intro s hg
    refine ⟨hg, ⟨[], by simp⟩, fun g h => h, fun g h => h, rfl, ?_⟩
    intro _ f hf
    simp at hf
  | cons b bs ih =>
    intro s hg
    rcases runBatch_props eo tr b s hg with ⟨hg1, ⟨t1, ht1⟩, hmonoE1, hmonoT1, hst1, hmark1⟩
    rcases ih (runBatch eo tr b s) hg1 with ⟨hg2, ⟨t2, ht2⟩, hmonoE2, hmonoT2, hst2, hmark2⟩
    have hfold : (b :: bs).foldl (fun s b => runBatch eo tr b s) s =
        bs.foldl (fun s b => runBatch eo tr b s) (runBatch eo tr b s) := rfl
    rw [hfold]
    refine ⟨hg2, ⟨t1 ++ t2, by rw [ht2, ht1, List.append_assoc]⟩,
      fun g hgm => hmonoE2 g (hmonoE1 g hgm), fun g hgm => hmonoT2 g (hmonoT1 g hgm),
      by rw [hst2, hst1], ?_⟩
    intro heq f hf
    have h0 : s.cm.data.errors ++ t1 ++ t2 = s.cm.data.errors := by
      rw [← ht1, ← ht2]
      exact heq
    rcases append_append_eq_self _ _ _ h0 with ⟨he1, he2⟩
    have herr1 : (runBatch eo tr b s).cm.data.errors = s.cm.data.errors := by
      rw [ht1, he1, List.append_nil]
    have herr2 : (bs.foldl (fun s b => runBatch eo tr b s) (runBatch eo tr b s)).cm.data.errors =
        (runBatch eo tr b s).cm.data.errors := by
      rw [ht2, he2, List.append_nil]
    have hf' : f ∈ b ++ bs.join := hf
    rw [List.mem_append] at hf'
    rcases hf' with hf | hf
    · rcases hmark1 herr1 f hf with ⟨hfe, hft⟩
      exact ⟨hmonoE2 f hfe, hmonoT2 f hft⟩
    · exact hmark2 herr2 f hf

end Pipeline

namespace Pipeline

lemma unitExtract_skip (eo : ExtractOracle) (f : Nat) (s : RunSt)
    (hf : f ∈ s.cm.data.extracted_files) : processUnitExtract eo f s = s := by
  simp [processUnitExtract, is_extracted, hf]

lemma unitTranslate_skip (tr : TransOracle) (f : Nat) (s : RunSt)
    (hf : f ∈ s.cm.data.translated_files) : processUnitTranslate tr f s = s := by
  simp [processUnitTranslate, is_translated, hf]

lemma batchExtract_skip (eo : ExtractOracle) : ∀ (batch : List Nat) (s : RunSt),
    (∀ f, f ∈ batch → f ∈ s.cm.data.extracted_files) →
    processBatchExtract eo batch s = s := by
  intro batch
  induction batch with
  | nil => intro s _; rfl
  | cons f fs ih =>
    intro s hmem
    have h1 : processUnitExtract eo f s = s :=
      unitExtract_skip eo f s (hmem f (List.mem_cons_self f fs))
    have hfold : processBatchExtract eo (f :: fs) s =
        processBatchExtract eo fs (processUnitExtract eo f s) := rfl
    rw [hfold, h1]
    exact ih s (fun f1 hf1 => hmem f1 (List.mem_cons_of_mem f hf1))

lemma batchTranslate_skip (tr : TransOracle) : ∀ (batch : List Nat) (s : RunSt),
    (∀ f, f ∈ batch → f ∈ s.cm.data.translated_files) →
    processBatchTranslate tr batch s = s := by
  intro batch
  induction batch with
  | nil => intro s _; rfl
  | cons f fs ih =>
    intro s hmem
    have h1 : processUnitTranslate tr f s = s :=
      unitTranslate_skip tr f s (hmem f (List.mem_cons_self f fs))
    have hfold : processBatchTranslate tr (f :: fs) s =
        processBatchTranslate tr fs (processUnitTranslate tr f s) := rfl
    rw [hfold, h1]
    exact ih s (fun f1 hf1 => hmem f1 (List.mem_cons_of_mem f hf1))

lemma runBatches_skip (eo : ExtractOracle) (tr : TransOracle) :
    ∀ (batches : List (List Nat)) (s : RunSt),
    (∀ f, f ∈ batches.join →
      f ∈ s.cm.data.extracted_files ∧ f ∈ s.cm.data.translated_files) →
    batches.foldl (fun s b => runBatch eo tr b s) s = s := by
  intro batches
  induction batches with
  | nil => intro s _; rfl
  | cons b bs ih =>
    intro s hmem
    have hb : runBatch eo tr b s = s := by
      have hE : processBatchExtract eo b s = s :=
        batchExtract_skip eo b s
          (fun f hf => (hmem f (by simp [List.mem_append, hf])).1)
      have hT : processBatchTranslate tr b s = s :=
        batchTranslate_skip tr b s
          (fun f hf => (hmem f (by simp [List.mem_append, hf])).2)
      show processBatchTranslate tr b (processBatchExtract eo b s) = s
      rw [hE, hT]
    have hfold : (b :: bs).foldl (fun s b => runBatch eo tr b s) s =
        bs.foldl (fun s b => runBatch eo tr b s) (runBatch eo tr b s) := rfl
    rw [hfold, hb]
    exact ih s (fun f hf => hmem f (by simp [List.mem_append, hf]))

lemma loadCM_of_saved (cm : CM) (h : cm.file = some cm.data) : loadCM cm.file = cm := by
  rcases cm with ⟨d, fl⟩
  simp only at h
  rw [h]
  simp [loadCM]

/-- Claim C1: after a first full pipeline run over a fresh checkpoint that
finished with an empty error log, a second run (with any extraction and
translation services at all) leaves the checkpoint data and file, and every
on-disk quote file, exactly as the first run left them, and its running
call counter stays at zero: every unit is skipped by the
is_extracted / is_translated checks before any service call. -/
theorem idempotent_resume (eo : ExtractOracle) (tr : TransOracle)
    (eo2 : ExtractOracle) (tr2 : TransOracle)
    (batches : List (List Nat)) (disk0 : Nat → Option (List Quote))
    (hclean : (pipelineRun eo tr batches
        { cm := initCM, disk := disk0, calls := 0 }).cm.data.errors = []) :
    pipelineRun eo2 tr2 batches
      { cm := loadCM (pipelineRun eo tr batches
          { cm := initCM, disk := disk0, calls := 0 }).cm.file
        disk := (pipelineRun eo tr batches { cm := initCM, disk := disk0, calls := 0 }).disk
        calls := 0 } =
      { cm := (pipelineRun eo tr batches { cm := initCM, disk := disk0, calls := 0 }).cm
        disk := (pipelineRun eo tr batches { cm := initCM, disk := disk0, calls := 0 }).disk
        calls := 0 } := by
  have hstart0 : GoodSt ({ cm := set_start_time initCM, disk := disk0, calls := 0 } : RunSt) := by
    constructor
    · simp [set_start_time, initCM, loadCM, freshPState, save]
    · intro g hgm
      simp [set_start_time, initCM, loadCM, freshPState, save] at hgm
  have hrun : pipelineRun eo tr batches { cm := initCM, disk := disk0, calls := 0 } =
      batches.foldl (fun s b => runBatch eo tr b s)
        { cm := set_start_time initCM, disk := disk0, calls := 0 } := rfl
  rcases runBatches_props eo tr batches
      { cm := set_start_time initCM, disk := disk0, calls := 0 } hstart0 with
    ⟨hgood, ⟨t, ht⟩, _, _, hstart, hmarks⟩
  rw [← hrun] at hgood ht hstart hmarks
  have herr0 : ({ cm := set_start_time initCM, disk := disk0, calls := 0 } : RunSt).cm.data.errors
      = [] := by
    simp [set_start_time, initCM, loadCM, freshPState, save]
  have herreq : (pipelineRun eo tr batches
      { cm := initCM, disk := disk0, calls := 0 }).cm.data.errors =
      ({ cm := set_start_time initCM, disk := disk0, calls := 0 } : RunSt).cm.data.errors := by
    rw [hclean, herr0]
  have hall := hmarks herreq
  have hst1 : (pipelineRun eo tr batches
      { cm := initCM, disk := disk0, calls := 0 }).cm.data.start_time = true := by
    rw [hstart]
    simp [set_start_time, initCM, loadCM, freshPState, save]
  have hcm2 : loadCM (pipelineRun eo tr batches
      { cm := initCM, disk := disk0, calls := 0 }).cm.file =
      (pipelineRun eo tr batches { cm := initCM, disk := disk0, calls := 0 }).cm :=
    loadCM_of_saved _ hgood.1
  rw [hcm2]
  have hsst : set_start_time (pipelineRun eo tr batches
      { cm := initCM, disk := disk0, calls := 0 }).cm =
      (pipelineRun eo tr batches { cm := initCM, disk := disk0, calls := 0 }).cm := by
    simp [set_start_time, hst1]
  have hrun2 : pipelineRun eo2 tr2 batches
      { cm := (pipelineRun eo tr batches { cm := initCM, disk := disk0, calls := 0 }).cm
        disk := (pipelineRun eo tr batches { cm := initCM, disk := disk0, calls := 0 }).disk
        calls := 0 } =
      batches.foldl (fun s b => runBatch eo2 tr2 b s)
        { cm := (pipelineRun eo tr batches { cm := initCM, disk := disk0, calls := 0 }).cm
          disk := (pipelineRun eo tr batches { cm := initCM, disk := disk0, calls := 0 }).disk
          calls := 0 } := by
    unfold pipelineRun
    rw [← hrun]
    simp only [hsst]
  rw [hrun2]
  exact runBatches_skip eo2 tr2 batches _ (fun f hf => hall f hf)

/-- Witness for C1: two one-file batches, services that always succeed; the
first run extracts and translates both units with no errors, and the
theorem applies to give an unchanged second run with zero calls. -/
theorem idempotent_resume_witness :
    pipelineRun (fun _ _ => none) (fun _ _ => fun _ _ => none) [[0], [1]]
      { cm := loadCM (pipelineRun (fun _ _ => some [{ text := ['a'] }])
          (fun _ _ => fun _ _ => some ['x']) [[0], [1]]
          { cm := initCM, disk := fun _ => none, calls := 0 }).cm.file
        disk := (pipelineRun (fun _ _ => some [{ text := ['a'] }])
          (fun _ _ => fun _ _ => some ['x']) [[0], [1]]
          { cm := initCM, disk := fun _ => none, calls := 0 }).disk
        calls := 0 } =
      { cm := (pipelineRun (fun _ _ => some [{ text := ['a'] }])
          (fun _ _ => fun _ _ => some ['x']) [[0], [1]]
          { cm := initCM, disk := fun _ => none, calls := 0 }).cm
        disk := (pipelineRun (fun _ _ => some [{ text := ['a'] }])
          (fun _ _ => fun _ _ => some ['x']) [[0], [1]]
          { cm := initCM, disk := fun _ => none, calls := 0 }).disk
        calls := 0 } :=
  idempotent_resume (fun _ _ => some [{ text := ['a'] }]) (fun _ _ => fun _ _ => some ['x'])
    (fun _ _ => none) (fun _ _ => fun _ _ => none) [[0], [1]] (fun _ => none) (by decide)

end Pipeline
